import Mathlib

/-!
# Verification of the cricketapi extraction pipeline (src/main.py)

A shallow embedding of the text-normalization, field-extraction,
segmentation, candidate-selection, deduplication and HTTP-handler logic of
`src/main.py`, together with proofs of the specification's claims.

Modelling conventions:
* Python strings are Lean `String`s; most work happens on `List Char`.
* Python's `re` character classes are modelled over ASCII (the scraped
  pages are ASCII): `\s` is the six-character Python whitespace set,
  `\d` is `0-9`, `[A-Z]` is `A-Z`, `\w` is letters, digits and `_`.
* Each regular expression of the source is hand-compiled into a scanning
  function that reproduces `re.search` semantics (leftmost start position,
  Python's leftmost-biased alternation and greedy quantifiers with
  backtracking).  Each function carries the pattern it implements.
-/

abbrev Chars := List Char

/-- Python `\s` / `str.strip` whitespace set (ASCII part):
space, tab, newline, carriage return, vertical tab, form feed. -/
def pySpace (c : Char) : Bool :=
  c == ' ' || c == '\t' || c == '\n' || c == '\r' || c == '\x0b' || c == '\x0c'

/-- Python `\w` (ASCII part): letters, digits, underscore. -/
def pyWord (c : Char) : Bool :=
  c.isAlpha || c.isDigit || c == '_'

/-- `re.sub(r"\s+", " ", s)` : replace every maximal whitespace run by a
single space.  The flag records whether we are inside a whitespace run
(the single replacement space is emitted at the start of the run). -/
def squashGo : Bool → Chars → Chars
  | _, [] => []
  | inRun, c :: cs =>
    if pySpace c then
      if inRun then squashGo true cs else ' ' :: squashGo true cs
    else
      c :: squashGo false cs

/-- Drop leading Python whitespace (one side of `str.strip`). -/
def dropWS (l : Chars) : Chars := l.dropWhile (fun c => pySpace c)

/-- Python `str.strip()` : drop whitespace from both ends. -/
def stripChars (l : Chars) : Chars := (dropWS (dropWS l).reverse).reverse

/-- `_clean_text` (src/main.py:31-33):
`re.sub(r"\s+", " ", (s or "")).strip()`. -/
def clean_text (s : String) : String := ⟨stripChars (squashGo false s.data)⟩

/-- `_clean_text` as called on a possibly-absent value: `(s or "")`
maps Python `None` to the empty string before cleaning. -/
def clean_text_opt (s : Option String) : String := clean_text (s.getD "")

/-- Python `str.strip()` on a `String`. -/
def stripStr (s : String) : String := ⟨stripChars s.data⟩

/-- Python `str.lower()` (ASCII). -/
def pyLower (s : String) : String := ⟨s.data.map Char.toLower⟩

/-- The head character (if any) is not whitespace. -/
def headNotWS : Chars → Bool
  | [] => true
  | c :: _ => !pySpace c

/-- No two consecutive whitespace characters. -/
def noDouble : Chars → Bool
  | [] => true
  | [_] => true
  | a :: b :: t => !(pySpace a && pySpace b) && noDouble (b :: t)

/-- Every whitespace character is the single space. -/
def allSpace (l : Chars) : Bool := l.all (fun c => !pySpace c || c == ' ')

/-! ## Hand-compiled regular expressions of `src/main.py`

Each scanner reproduces `re.search` semantics for one concrete pattern:
positions are tried left to right, and at a position alternatives are
tried in Python's order (greedy quantifiers high-count first, `X?` with
`X` first, alternation left to right). -/

/-- Does the next character (if any) classify as a `\w` word character?
`none` stands for the start or the end of the string. -/
def optWord : Option Char → Bool
  | none => false
  | some c => pyWord c

/-- `\b` between two neighbouring positions: exactly one side is `\w`. -/
def wordB (a b : Option Char) : Bool := optWord a != optWord b

/-- Take exactly `n` characters satisfying `p`, returning them and the rest. -/
def takeExact (p : Char → Bool) : Nat → Chars → Option (Chars × Chars)
  | 0, l => some ([], l)
  | _ + 1, [] => none
  | n + 1, c :: cs =>
    if p c then (takeExact p n cs).map (fun dr => (c :: dr.1, dr.2)) else none

/-- Case-insensitive literal match (pattern given in lower case);
returns the rest of the input on success. -/
def matchCI : Chars → Chars → Option Chars
  | [], l => some l
  | _ :: _, [] => none
  | p :: ps, c :: cs => if c.toLower == p then matchCI ps cs else none

/-- `\b` directly after a word character: next char absent or not `\w`. -/
def boundAfterWord : Chars → Bool
  | [] => true
  | c :: _ => !pyWord c

/-! ### The overs pattern (src/main.py:48)

`\(?\s*(\d{1,2}(?:\.\d)?)\s*(ov|ovs|over|overs)\s*\)?` with `re.IGNORECASE`.
Only group 1 is used by the source. -/

/-- `\s*(ov|ovs|over|overs)` : the alternation is leftmost-biased and every
alternative begins with `ov`, so it succeeds exactly when the two characters
after the whitespace are `ov` case-insensitively; the trailing `\s*\)?` of
the pattern never fails. -/
def oversUnitAt (l : Chars) : Bool :=
  match dropWS l with
  | c1 :: c2 :: _ => c1.toLower == 'o' && c2.toLower == 'v'
  | _ => false

/-- `(?:\.\d)?` taken (greedy first branch), then the unit. -/
def oversFrac (ds l : Chars) : Option Chars :=
  match l with
  | '.' :: c :: r => if c.isDigit && oversUnitAt r then some (ds ++ ['.', c]) else none
  | _ => none

/-- `(?:\.\d)?` skipped (empty branch), then the unit. -/
def oversNoFrac (ds l : Chars) : Option Chars :=
  if oversUnitAt l then some ds else none

/-- `(\d{1,2}(?:\.\d)?)` followed by the unit, with Python's greedy
backtracking order: two digits with fraction, two digits without, one digit
with fraction, one digit without. -/
def oversDigits : Chars → Option Chars
  | [] => none
  | a :: rest =>
    if a.isDigit then
      match rest with
      | b :: rest2 =>
        if b.isDigit then
          oversFrac [a, b] rest2 <|> oversNoFrac [a, b] rest2 <|>
            oversFrac [a] rest <|> oversNoFrac [a] rest
        else
          oversFrac [a] rest <|> oversNoFrac [a] rest
      | [] => oversNoFrac [a] []
    else none

/-- The overs pattern anchored at one position: `\(?\s*` then the digits.
The greedy `\(?` consumes a paren when present; the paren-less fallback then
has to match a digit against `(` and always fails (kept for fidelity). -/
def oversAtPos (l : Chars) : Option Chars :=
  match l with
  | '(' :: rest => oversDigits (dropWS rest) <|> oversDigits (dropWS l)
  | _ => oversDigits (dropWS l)

/-- `re.search` for the overs pattern: leftmost position wins. -/
def oversSearch : Chars → Option Chars
  | [] => none
  | c :: rest => oversAtPos (c :: rest) <|> oversSearch rest

/-! ### The score pattern (src/main.py:56)

`\b([A-Z]{2,6}\s*)?(\d{1,3}\s*(?:/|-)\s*\d{1,2})\b` (case sensitive). -/

/-- `\d{1,2}\b` for the wickets, greedy: two digits first, then one. -/
def wicketsTry (l : Chars) : Option Chars :=
  ((takeExact (fun c => c.isDigit) 2 l).bind fun dr =>
    if boundAfterWord dr.2 then some dr.1 else none) <|>
  ((takeExact (fun c => c.isDigit) 1 l).bind fun dr =>
    if boundAfterWord dr.2 then some dr.1 else none)

/-- After the runs digits: `\s*(?:/|-)\s*\d{1,2}\b`.  The captured group 2
keeps the internal whitespace, exactly as `m_score.group(2)` does. -/
def group2After (runs r1 : Chars) : Option Chars :=
  let ws1 := r1.takeWhile (fun c => pySpace c)
  let r2 := r1.dropWhile (fun c => pySpace c)
  match r2 with
  | c :: r3 =>
    if c == '/' || c == '-' then
      let ws2 := r3.takeWhile (fun c => pySpace c)
      let r4 := r3.dropWhile (fun c => pySpace c)
      (wicketsTry r4).map (fun w => runs ++ ws1 ++ [c] ++ ws2 ++ w)
    else none
  | [] => none

/-- `(\d{1,3}\s*(?:/|-)\s*\d{1,2})\b` with greedy runs digits (3, 2, 1). -/
def group2Try (l : Chars) : Option Chars :=
  ((takeExact (fun c => c.isDigit) 3 l).bind fun dr => group2After dr.1 dr.2) <|>
  ((takeExact (fun c => c.isDigit) 2 l).bind fun dr => group2After dr.1 dr.2) <|>
  ((takeExact (fun c => c.isDigit) 1 l).bind fun dr => group2After dr.1 dr.2)

/-- The optional team group `([A-Z]{2,6}\s*)` with exactly `k` letters,
then group 2.  Group 1 keeps its trailing whitespace. -/
def scoreTeamK (k : Nat) (l : Chars) : Option (Chars × Chars) :=
  (takeExact (fun c => c.isUpper) k l).bind fun tr =>
    let ws := tr.2.takeWhile (fun c => pySpace c)
    let r2 := tr.2.dropWhile (fun c => pySpace c)
    (group2Try r2).map (fun g2 => (tr.1 ++ ws, g2))

/-- The score pattern at one position (after the leading `\b` holds):
team sizes 6 down to 2 first (greedy `{2,6}` inside the optional group,
the group present first), then the team-less alternative. -/
def scoreTryAt (l : Chars) : Option (Chars × Chars) :=
  scoreTeamK 6 l <|> scoreTeamK 5 l <|> scoreTeamK 4 l <|> scoreTeamK 3 l <|>
    scoreTeamK 2 l <|> (group2Try l).map (fun g2 => (([] : Chars), g2))

/-- `re.search` for the score pattern; `prev` is the character before the
current position, for the leading `\b`. -/
def scoreSearchGo (prev : Option Char) : Chars → Option (Chars × Chars)
  | [] => none
  | c :: rest =>
    (if wordB prev (some c) then scoreTryAt (c :: rest) else none) <|>
      scoreSearchGo (some c) rest

/-! ### The all-out pattern (src/main.py:64)

`\b([A-Z]{2,6}\s*)?(\d{1,3})\s*(all\s*out)\b` with `re.IGNORECASE`
(the ignore-case flag makes `[A-Z]` match lower-case letters too). -/

/-- `\s*(all\s*out)\b` case-insensitively. -/
def alloutTail (r : Chars) : Bool :=
  match matchCI ['a', 'l', 'l'] (dropWS r) with
  | some r2 =>
    (match matchCI ['o', 'u', 't'] (dropWS r2) with
     | some r3 => boundAfterWord r3
     | none => false)
  | none => false

/-- `(\d{1,3})` with exactly `k` digits, then the all-out tail. -/
def alloutDigitsK (k : Nat) (team l : Chars) : Option (Chars × Chars) :=
  (takeExact (fun c => c.isDigit) k l).bind fun dr =>
    if alloutTail dr.2 then some (team, dr.1) else none

/-- Greedy `{1,3}` on the runs digits. -/
def alloutDigits (team l : Chars) : Option (Chars × Chars) :=
  alloutDigitsK 3 team l <|> alloutDigitsK 2 team l <|> alloutDigitsK 1 team l

/-- Optional team of exactly `k` letters (case-insensitive `[A-Z]`). -/
def alloutTeamK (k : Nat) (l : Chars) : Option (Chars × Chars) :=
  (takeExact (fun c => c.isAlpha) k l).bind fun tr =>
    let ws := tr.2.takeWhile (fun c => pySpace c)
    alloutDigits (tr.1 ++ ws) (tr.2.dropWhile (fun c => pySpace c))

/-- The all-out pattern at one position. -/
def alloutTryAt (l : Chars) : Option (Chars × Chars) :=
  alloutTeamK 6 l <|> alloutTeamK 5 l <|> alloutTeamK 4 l <|> alloutTeamK 3 l <|>
    alloutTeamK 2 l <|> alloutDigits [] l

/-- `re.search` for the all-out pattern. -/
def alloutSearchGo (prev : Option Char) : Chars → Option (Chars × Chars)
  | [] => none
  | c :: rest =>
    (if wordB prev (some c) then alloutTryAt (c :: rest) else none) <|>
      alloutSearchGo (some c) rest

/-! ### The title pattern (src/main.py:93)

`re.search(r"\b(vs|v)\b", p, re.IGNORECASE)`. -/

/-- `(vs|v)\b` at one position, alternation order `vs` then `v`. -/
def vsTryAt : Chars → Bool
  | [] => false
  | c :: rest =>
    c.toLower == 'v' &&
      (match rest with
       | [] => true
       | s :: r2 => (s.toLower == 's' && boundAfterWord r2) || boundAfterWord (s :: r2))

/-- `re.search(r"\b(vs|v)\b", ·, re.IGNORECASE)` as a Boolean. -/
def hasVsWordGo (prev : Option Char) : Chars → Bool
  | [] => false
  | c :: rest => (wordB prev (some c) && vsTryAt (c :: rest)) || hasVsWordGo (some c) rest

/-- Fragment classification of the segmenter (src/main.py:93):
a fragment is a title fragment iff it contains a whole-word `vs` or `v`. -/
def is_title_fragment (p : String) : Bool := hasVsWordGo none p.data

/-! ## `_extract_score_and_overs` (src/main.py:36-69) -/

/-- `re.sub(r"\s+", "", x)` : delete every whitespace character. -/
def removeWS (l : Chars) : Chars := l.filter (fun c => !pySpace c)

/-- `_extract_score_and_overs(text)` translated line by line. -/
def extract_score_and_overs (text : String) : String × String :=
  let t := (clean_text text).data
  let overs : String :=
    match oversSearch t with
    | some g => String.mk g ++ " ov"
    | none => ""
  let score : String :=
    match scoreSearchGo none t with
    | some tg =>
      -- team = (m.group(1) or "").strip(); scr = re.sub(r"\s+","",m.group(2));
      -- score = f"{team} {scr}".strip()
      stripStr (String.mk (stripChars tg.1) ++ " " ++ String.mk (removeWS tg.2))
    | none =>
      match alloutSearchGo none t with
      | some tg =>
        -- score = f"{team} {m_allout.group(2)} all out".strip()
        stripStr (String.mk (stripChars tg.1) ++ " " ++ String.mk tg.2 ++ " all out")
      | none => ""
  (score, overs)

/-! ## Python string primitives used by the segmenter -/

/-- Is `pat` a prefix of `l`? -/
def leadsWith : Chars → Chars → Bool
  | [], _ => true
  | _ :: _, [] => false
  | a :: as, b :: bs => a == b && leadsWith as bs

/-- Python `str.replace(old, new)` : replace every non-overlapping
occurrence, scanning left to right.  `fuel` bounds the recursion; every
step consumes at least one character (all call sites in the source pass a
non-empty `old`), so `fuel = length` is enough. -/
def pyReplaceGo (pat rep : Chars) : Nat → Chars → Chars
  | 0, l => l
  | _ + 1, [] => []
  | fuel + 1, c :: rest =>
    if leadsWith pat (c :: rest) then
      rep ++ pyReplaceGo pat rep fuel ((c :: rest).drop pat.length)
    else c :: pyReplaceGo pat rep fuel rest

/-- Python `s.replace(pat, rep)` for the non-empty patterns of the source. -/
def pyReplace (s pat rep : String) : String :=
  ⟨pyReplaceGo pat.data rep.data s.data.length s.data⟩

/-- Python `s.split(sep)` : split on non-overlapping leftmost occurrences
of the (non-empty) separator.  `cur` is the current piece, reversed. -/
def pySplitGo (sep : Chars) : Nat → Chars → Chars → List Chars
  | 0, cur, l => [cur.reverse ++ l]
  | _ + 1, cur, [] => [cur.reverse]
  | fuel + 1, cur, c :: rest =>
    if leadsWith sep (c :: rest) then
      cur.reverse :: pySplitGo sep fuel [] ((c :: rest).drop sep.length)
    else pySplitGo sep fuel (c :: cur) rest

/-- Python `s.split(sep)` on `String`s. -/
def pySplit (s sep : String) : List String :=
  (pySplitGo sep.data s.data.length [] s.data).map String.mk

/-! ### The overs-removal substitution (src/main.py:110)

`re.sub(r"\(?\s*" + re.escape(overs) + r"\s*\)?", "", status, re.IGNORECASE)` :
every match of an optional `(`, whitespace, the literal overs text
(case-insensitively) and optional trailing whitespace and `)` is deleted. -/

/-- The escaped literal, case-insensitively, then `\s*\)?` (greedy:
consume the whitespace, then the paren if present).  Returns the rest of
the input after the match. -/
def oversSubLit (ov l : Chars) : Option Chars :=
  match matchCI (ov.map Char.toLower) l with
  | some r1 =>
    let r2 := r1.dropWhile (fun c => pySpace c)
    some (match r2 with
          | ')' :: r3 => r3
          | _ => r2)
  | none => none

/-- The whole removal pattern at one position: `\(?\s*` then the literal.
The overs literal starts with a digit, so when the greedy `\(?` branch
fails the paren-less fallback fails too (kept for fidelity). -/
def oversSubAt (ov l : Chars) : Option Chars :=
  match l with
  | '(' :: rest => oversSubLit ov (dropWS rest) <|> oversSubLit ov (dropWS l)
  | _ => oversSubLit ov (dropWS l)

/-- `re.sub(..., "", status)` : scan left to right, deleting matches.
Each match consumes at least the non-empty literal, so `fuel = length`
is enough. -/
def subOversGo (ov : Chars) : Nat → Chars → Chars
  | 0, l => l
  | _ + 1, [] => []
  | fuel + 1, c :: rest =>
    match oversSubAt ov (c :: rest) with
    | some r2 => subOversGo ov fuel r2
    | none => c :: subOversGo ov fuel rest

/-- The overs-removal substitution on `String`s. -/
def subOvers (ov s : String) : String := ⟨subOversGo ov.data s.data.length s.data⟩

/-! ## `_split_live_blob_to_matches` (src/main.py:72-146) -/

/-- One structured match record (the dict of src/main.py:114-119). -/
structure MatchRec where
  matchField : String
  score : String
  overs : String
  status : String
deriving DecidableEq, Repr

/-- The "common UI junk words" of src/main.py:80. -/
def junkWords : List String := ["MATCHES", "ALL", "Preview", "PREVIEW"]

/-- src/main.py:77-86: clean, strip junk words, clean again, split on
`" - "`, strip the pieces and keep the non-empty ones. -/
def blobFragments (text : String) : List String :=
  let t0 := clean_text text
  let t1 := junkWords.foldl (fun acc jw => pyReplace acc jw " ") t0
  let t2 := clean_text t1
  ((pySplit t2 " - ").map stripStr).filter (fun p => p ≠ "")

/-- src/main.py:97-119: processing of one detail fragment `p` under the
pending title `current_match`. -/
def emit_record (current_match p : String) : MatchRec :=
  let chunk := clean_text p
  let so := extract_score_and_overs chunk
  let score := so.1
  let overs := so.2
  -- status = chunk; if score: status = status.replace(score, "").strip()
  let status1 := if score ≠ "" then stripStr (pyReplace chunk score "") else chunk
  -- if overs: status = re.sub(r"\(?\s*"+re.escape(overs)+r"\s*\)?", "", status, IGNORECASE).strip()
  let status2 := if overs ≠ "" then stripStr (subOvers overs status1) else status1
  { matchField := current_match, score := score, overs := overs,
    status := clean_text status2 }

/-- src/main.py:89-120: the fragment walk with its pending-title slot.
Python's truthiness test `if current_match:` is false for both `None`
and the empty string. -/
def partsLoop : List String → Option String → List MatchRec
  | [], _ => []
  | p :: ps, cur =>
    if is_title_fragment p then partsLoop ps (some (clean_text p))
    else if cur.getD "" ≠ "" then emit_record (cur.getD "") p :: partsLoop ps none
    else partsLoop ps cur

/-- The lower-cased key tuple used by both deduplication passes. -/
def recKey (r : MatchRec) : String × String × String × String :=
  (pyLower r.matchField, pyLower r.score, pyLower r.overs, pyLower r.status)

/-- The re-cleaned record of src/main.py:126-129. -/
def cleanRec (r : MatchRec) : MatchRec :=
  { matchField := clean_text r.matchField, score := clean_text r.score,
    overs := clean_text r.overs, status := clean_text r.status }

/-- src/main.py:122-146: re-clean each record, drop records with an empty
match, and keep only the first record for each lower-cased key tuple. -/
def dedupCleanGo (seen : List (String × String × String × String)) :
    List MatchRec → List MatchRec
  | [] => []
  | item :: rest =>
    let r := cleanRec item
    if r.matchField = "" then dedupCleanGo seen rest
    else if recKey r ∈ seen then dedupCleanGo seen rest
    else r :: dedupCleanGo (recKey r :: seen) rest

/-- The segmenter applied to an already-split fragment list. -/
def segmentFragments (ps : List String) : List MatchRec :=
  dedupCleanGo [] (partsLoop ps none)

/-- `_split_live_blob_to_matches` (src/main.py:72-146). -/
def split_live_blob_to_matches (text : String) : List MatchRec :=
  segmentFragments (blobFragments text)

/-! ## The `/live` handler (src/main.py:236-317)

The network fetch and HTML parsing are external collaborators; the handler
is modelled as a function of the fetch status and the list of text contents
of the sampled page elements (`el.get_text(" ", strip=True)` for each of
the at most 6000 `div`/`a` elements). -/

/-- Substring test (`k in s` in Python). -/
def containsSeq (pat : Chars) : Chars → Bool
  | [] => leadsWith pat []
  | c :: rest => leadsWith pat (c :: rest) || containsSeq pat rest

/-- `pat in s` on `String`s. -/
def containsSub (pat s : String) : Bool := containsSeq pat.data s.data

/-- src/main.py:269: `(" vs " in txt.lower()) or (" v " in txt.lower())`. -/
def has_vs_marker (txt : String) : Bool :=
  containsSub " vs " (pyLower txt) || containsSub " v " (pyLower txt)

/-- The score-context keyword set of src/main.py:270. -/
def hintWords : List String :=
  ["overs", "ov", "won by", "need", "target", "innings", "trail", "lead", "/"]

/-- src/main.py:270: `any(k in txt.lower() for k in [...])`. -/
def has_hint (txt : String) : Bool :=
  hintWords.any (fun k => containsSub k (pyLower txt))

/-- src/main.py:258-272: normalize each element text and keep it iff it is
non-empty, at most 420 characters, and has both a versus marker and a
score hint. -/
def select_blobs (nodes : List String) : List String :=
  (nodes.map clean_text).filter
    (fun txt => (txt != "") && (!(decide (txt.length > 420))) &&
      has_vs_marker txt && has_hint txt)

/-- src/main.py:274-282: deduplicate the blobs by lower-cased text,
keeping the first occurrence. -/
def dedupBlobsGo (seen : List String) : List String → List String
  | [] => []
  | b :: bs =>
    let k := pyLower b
    if k ∈ seen then dedupBlobsGo seen bs
    else b :: dedupBlobsGo (k :: seen) bs

/-- src/main.py:297-304: the final deduplication by the lower-cased
four-field key tuple (no re-cleaning at this stage). -/
def dedupFinalGo (seen : List (String × String × String × String)) :
    List MatchRec → List MatchRec
  | [] => []
  | item :: rest =>
    if recKey item ∈ seen then dedupFinalGo seen rest
    else item :: dedupFinalGo (recKey item :: seen) rest

/-- The final deduplication pass. -/
def dedup_records (l : List MatchRec) : List MatchRec := dedupFinalGo [] l

/-- The handler's outcome: a 200 JSON array of records, or an error JSON
object whose `error` field is the given message (the source also attaches
diagnostic fields such as the page title; only the `error` field and the
status code are modelled). -/
inductive LiveResponse where
  | success (code : Nat) (records : List MatchRec)
  | failure (code : Nat) (error : String)
deriving DecidableEq, Repr

/-- `uniq_blobs` of src/main.py:275-282. -/
def uniq_blobs (nodes : List String) : List String :=
  dedupBlobsGo [] (select_blobs nodes)

/-- src/main.py:292-294: segment the first 10 blobs of a (deduplicated)
blob list and concatenate the results (`for blob in uniq_blobs[:10]:
all_items.extend(_split_live_blob_to_matches(blob))`). -/
def liveItemsFromBlobs (bs : List String) : List MatchRec :=
  ((bs.take 10).map split_live_blob_to_matches).flatten

/-- The segmented items of the `/live` handler. -/
def live_items (nodes : List String) : List MatchRec :=
  liveItemsFromBlobs (uniq_blobs nodes)

/-- src/main.py:297-304 applied to the segmented items. -/
def live_final (nodes : List String) : List MatchRec :=
  dedup_records (live_items nodes)

/-- The `/live` route (src/main.py:236-317) as a function of the upstream
fetch status and the sampled element texts. -/
def live_matches (fetchStatus : Nat) (nodes : List String) : LiveResponse :=
  if fetchStatus ≠ 200 then .failure 502 "Failed to fetch Cricbuzz"
  else if uniq_blobs nodes = [] then .failure 502 "No live data found (layout changed)"
  else if live_final nodes = [] then .failure 502 "Parsed zero matches (layout changed)"
  else .success 200 ((live_final nodes).take 30)


/-! ## Spec-side status extraction (claim C1)

`extract_status(text, score, overs)` as the specification words it, for
comparison with the inline computation of src/main.py:104-112. -/

/-- Remove the first occurrence of `pat` only (the spec's
"removes the first literal occurrence of `score`"). -/
def removeFirstGo (pat : Chars) : Chars → Chars
  | [] => []
  | c :: rest =>
    if leadsWith pat (c :: rest) then (c :: rest).drop pat.length
    else c :: removeFirstGo pat rest

/-- Remove one (the leftmost) parenthesized-or-bare case-insensitive
occurrence of the overs text (the spec's "removes a parenthesized-or-bare
occurrence of `overs`"). -/
def subOversOnceGo (ov : Chars) : Chars → Chars
  | [] => []
  | c :: rest =>
    match oversSubAt ov (c :: rest) with
    | some r2 => r2
    | none => c :: subOversOnceGo ov rest

/-- The spec's `extract_status` contract read literally (claim C1): start
from the text; if `score` is non-empty remove its first literal
occurrence; if `overs` is non-empty remove one parenthesized-or-bare
case-insensitive occurrence; re-normalize whitespace. -/
def extract_status_spec (text score overs : String) : String :=
  let s1 := if score ≠ "" then (⟨removeFirstGo score.data text.data⟩ : String) else text
  let s2 := if overs ≠ "" then (⟨subOversOnceGo overs.data s1.data⟩ : String) else s1
  clean_text s2

/-- `extract_status` with the amended wording (claim C1 corrected): if
`score` is non-empty remove every literal occurrence of it and trim; if
`overs` is non-empty remove every parenthesized-or-bare case-insensitive
occurrence of it and trim; re-normalize whitespace. -/
def extract_status_all (text score overs : String) : String :=
  let s1 := if score ≠ "" then stripStr (pyReplace text score "") else text
  let s2 := if overs ≠ "" then stripStr (subOvers overs s1) else s1
  clean_text s2

/-! ## The enrichment path of `/live?detail=1` (claim C2)

Modelled from the spec: the `detail=1` enrichment path (spec §4.6
"Enrichment Aggregator", §6) belongs to the repository's other service
iterations and is not present in src/main.py, so it is modelled from the
spec's words: per-URL fetches whose failures are skipped and never abort
the batch; per-page extraction that derives a title from the heading or
the page title and drops empty-title pages, picks the best score/overs
pair by the "prefer the shortest well-formed candidate" rule and a status
line matching the status-keyword set within a length band; and a
whole-batch fallback to the primary result when enrichment yields zero
records.  The unspecified numeric length bounds are chosen arbitrarily;
no claim depends on them. -/

/-- Modelled from the spec: a fetched per-match detail page, reduced to
the parts the Enrichment Aggregator reads (primary heading if present,
page title, text nodes). -/
structure DetailPage where
  heading : Option String
  pageTitle : String
  nodes : List String
deriving DecidableEq, Repr

/-- Modelled from the spec: "prefer the shortest well-formed candidate"
for the score/overs pair. -/
def betterScore (acc : Option (String × String)) (so : String × String) :
    Option (String × String) :=
  if so.1 = "" then acc
  else
    match acc with
    | none => some so
    | some old => if so.1.length < old.1.length then some so else some old

/-- Modelled from the spec: scan the bounded node sample, run the Field
Extractor on each node within a length bound, track the best pair. -/
def bestScoreOvers (texts : List String) : Option (String × String) :=
  texts.foldl (fun acc t => betterScore acc (extract_score_and_overs t)) none

/-- Modelled from the spec: "the best status line matching the
status-keyword set within a length band". -/
def bestStatus (texts : List String) : String :=
  match texts.find? (fun t => has_hint t && decide (t.length ≤ 80)) with
  | some t => t
  | none => ""

/-- Modelled from the spec: per-page extraction of the Enrichment
Aggregator; pages with an empty derived title yield no record. -/
def extract_detail_page (pg : DetailPage) : Option MatchRec :=
  let title := match pg.heading with
    | some h => clean_text h
    | none => clean_text pg.pageTitle
  if title = "" then none
  else
    let texts := (pg.nodes.map clean_text).filter
      (fun t => (t != "") && decide (t.length ≤ 200))
    let so := (bestScoreOvers texts).getD ("", "")
    some { matchField := title, score := so.1, overs := so.2,
           status := bestStatus texts }

/-- Modelled from the spec: visit each candidate link in order; a failed
fetch (`none`) skips that URL and never aborts the batch. -/
def enrich_records (fetch : String → Option DetailPage) (links : List String) :
    List MatchRec :=
  links.filterMap (fun u =>
    match fetch u with
    | none => none
    | some pg => extract_detail_page pg)

/-- Modelled from the spec: `/live?detail=1` — run enrichment over the
bounded candidate-link set; if it yields at least one record it supersedes
the primary result (deduplicated again), otherwise fall back silently to
the primary (non-enrichment) handler. -/
def live_matches_detail (detail : Bool) (fetchStatus : Nat)
    (nodes links : List String) (fetch : String → Option DetailPage) :
    LiveResponse :=
  if detail then
    let er := dedup_records (enrich_records fetch (links.take 10))
    if er ≠ [] then .success 200 er
    else live_matches fetchStatus nodes
  else live_matches fetchStatus nodes


/-! ## Lemmas about the normalizer -/

theorem headNotWS_squashGo_true (l : Chars) : headNotWS (squashGo true l) = true := by
  induction l with
  | nil => rfl
  | cons c cs ih =>
    by_cases h : pySpace c = true
    · simpa [squashGo, h] using ih
    · simp [squashGo, h, headNotWS]

theorem noDouble_cons (c : Chars) (a : Char)
    (h : pySpace a = false ∨ headNotWS c = true)
    (hc : noDouble c = true) : noDouble (a :: c) = true := by
  cases c with
  | nil => rfl
  | cons b t =>
    have hb : (pySpace a && pySpace b) = false := by
      rcases h with h | h
      · simp [h]
      · simp [headNotWS] at h
        simp [h]
    simp [noDouble, hb, hc]

theorem allSpace_squashGo (b : Bool) (l : Chars) : allSpace (squashGo b l) = true := by
  induction l generalizing b with
  | nil => rfl
  | cons c cs ih =>
    by_cases h : pySpace c = true
    · cases b with
      | true => simpa [squashGo, h] using ih true
      | false =>
        simp only [squashGo, h, if_true]
        simpa [allSpace] using ih true
    · simp only [squashGo, if_neg h]
      simpa [allSpace, h] using ih false

theorem noDouble_squashGo (b : Bool) (l : Chars) : noDouble (squashGo b l) = true := by
  induction l generalizing b with
  | nil => rfl
  | cons c cs ih =>
    by_cases h : pySpace c = true
    · cases b with
      | true => simpa [squashGo, h] using ih true
      | false =>
        simp only [squashGo, h, if_true]
        exact noDouble_cons _ _ (Or.inr (headNotWS_squashGo_true cs)) (ih true)
    · simp only [squashGo, if_neg h]
      exact noDouble_cons _ _ (Or.inl (by simpa using h)) (ih false)

theorem noDouble_tail (a : Char) (l : Chars) (h : noDouble (a :: l) = true) :
    noDouble l = true := by
  cases l with
  | nil => rfl
  | cons b t =>
    simp only [noDouble, Bool.and_eq_true] at h
    exact h.2

theorem noDouble_dropWhile (p : Char → Bool) (l : Chars) (h : noDouble l = true) :
    noDouble (l.dropWhile p) = true := by
  induction l with
  | nil => simpa using h
  | cons c cs ih =>
    by_cases hp : p c = true
    · simp only [List.dropWhile, hp]
      exact ih (noDouble_tail c cs h)
    · simpa [List.dropWhile, hp] using h

theorem noDouble_iff_chain (l : Chars) :
    noDouble l = true ↔ List.Chain' (fun a b => (!(pySpace a && pySpace b)) = true) l := by
  induction l with
  | nil => simp [noDouble]
  | cons c cs ih =>
    cases cs with
    | nil => simp [noDouble]
    | cons b t =>
      simp only [noDouble, Bool.and_eq_true, List.chain'_cons]
      rw [← ih]

theorem noDouble_reverse (l : Chars) (h : noDouble l = true) :
    noDouble l.reverse = true := by
  rw [noDouble_iff_chain] at h ⊢
  rw [List.chain'_reverse]
  refine List.Chain'.imp ?_ h
  intro a b hab
  show (!(pySpace b && pySpace a)) = true
  rwa [Bool.and_comm] at hab

theorem mem_of_mem_dropWhile (p : Char → Bool) (l : Chars) (x : Char)
    (h : x ∈ l.dropWhile p) : x ∈ l := by
  induction l with
  | nil => simp at h
  | cons c cs ih =>
    by_cases hp : p c = true
    · simp only [List.dropWhile, hp] at h
      exact List.mem_cons_of_mem c (ih h)
    · simpa [List.dropWhile, hp] using h

theorem allSpace_of_mem_subset (l m : Chars) (h : allSpace m = true)
    (hs : ∀ x, x ∈ l → x ∈ m) : allSpace l = true := by
  simp only [allSpace, List.all_eq_true] at h ⊢
  exact fun x hx => h x (hs x hx)

theorem headNotWS_dropWS (l : Chars) : headNotWS (dropWS l) = true := by
  induction l with
  | nil => rfl
  | cons c cs ih =>
    by_cases hp : pySpace c = true
    · simpa [dropWS, List.dropWhile, hp] using ih
    · simp [dropWS, List.dropWhile, hp, headNotWS]

theorem dropWS_eq_self (l : Chars) (h : headNotWS l = true) : dropWS l = l := by
  cases l with
  | nil => rfl
  | cons c cs =>
    simp only [headNotWS, Bool.not_eq_true'] at h
    simp [dropWS, List.dropWhile, h]

theorem dropWhile_append_single (p : Char → Bool) (xs : Chars) (a : Char)
    (h : p a = false) : (xs ++ [a]).dropWhile p = xs.dropWhile p ++ [a] := by
  induction xs with
  | nil => simp [List.dropWhile, h]
  | cons c cs ih =>
    by_cases hp : p c = true
    · simp [List.dropWhile, hp, ih]
    · simp [List.dropWhile, hp]

theorem squashGo_true_of_headNotWS (l : Chars) (h : headNotWS l = true) :
    squashGo true l = squashGo false l := by
  cases l with
  | nil => rfl
  | cons c cs =>
    simp only [headNotWS, Bool.not_eq_true'] at h
    simp [squashGo, h]

theorem squashGo_fix (l : Chars) (h1 : noDouble l = true) (h2 : allSpace l = true) :
    squashGo false l = l := by
  induction l with
  | nil => rfl
  | cons c cs ih =>
    by_cases hp : pySpace c = true
    · have hc : c = ' ' := by
        simp only [allSpace, List.all_cons, Bool.and_eq_true] at h2
        have := h2.1
        simp [hp] at this
        exact this
      have hhead : headNotWS cs = true := by
        cases cs with
        | nil => rfl
        | cons b t =>
          simp only [noDouble, Bool.and_eq_true] at h1
          have := h1.1
          simp only [Bool.not_eq_true', Bool.and_eq_false_iff] at this
          rcases this with h | h
          · exact absurd hp (by simp [h])
          · simp [headNotWS, h]
      have h2' : allSpace cs = true := by
        simp only [allSpace, List.all_cons, Bool.and_eq_true] at h2
        exact h2.2
      rw [squashGo, if_pos hp, if_neg (by simp), squashGo_true_of_headNotWS cs hhead,
        ih (noDouble_tail c cs h1) h2', hc]
    · rw [squashGo, if_neg hp, ih (noDouble_tail c cs h1)
        (by simp only [allSpace, List.all_cons, Bool.and_eq_true] at h2; exact h2.2)]

theorem headNotWS_stripChars_of (l : Chars) (h : headNotWS (dropWS l) = true) :
    headNotWS (stripChars l) = true := by
  unfold stripChars
  cases hA : dropWS l with
  | nil => rfl
  | cons a as =>
    rw [hA] at h
    simp only [headNotWS, Bool.not_eq_true'] at h
    rw [List.reverse_cons]
    simp only [dropWS]
    rw [dropWhile_append_single _ _ _ (by simpa using h)]
    simp [headNotWS, h]

theorem headNotWS_stripChars (l : Chars) : headNotWS (stripChars l) = true :=
  headNotWS_stripChars_of l (headNotWS_dropWS l)

theorem lastNotWS_stripChars (l : Chars) : headNotWS (stripChars l).reverse = true := by
  unfold stripChars
  rw [List.reverse_reverse]
  exact headNotWS_dropWS _

theorem noDouble_stripChars (l : Chars) (h : noDouble l = true) :
    noDouble (stripChars l) = true := by
  unfold stripChars
  apply noDouble_reverse
  apply noDouble_dropWhile
  apply noDouble_reverse
  apply noDouble_dropWhile
  exact h

theorem allSpace_stripChars (l : Chars) (h : allSpace l = true) :
    allSpace (stripChars l) = true := by
  apply allSpace_of_mem_subset _ l h
  intro x hx
  unfold stripChars at hx
  rw [List.mem_reverse] at hx
  have hx2 := mem_of_mem_dropWhile _ _ _ hx
  rw [List.mem_reverse] at hx2
  exact mem_of_mem_dropWhile _ _ _ hx2

theorem stripChars_fix (l : Chars) (h1 : headNotWS l = true)
    (h2 : headNotWS l.reverse = true) : stripChars l = l := by
  unfold stripChars
  rw [dropWS_eq_self l h1, dropWS_eq_self l.reverse h2, List.reverse_reverse]

theorem clean_text_data (s : String) :
    (clean_text s).data = stripChars (squashGo false s.data) := rfl

theorem noDouble_clean_text (s : String) : noDouble (clean_text s).data = true := by
  rw [clean_text_data]
  exact noDouble_stripChars _ (noDouble_squashGo false s.data)

theorem allSpace_clean_text (s : String) : allSpace (clean_text s).data = true := by
  rw [clean_text_data]
  exact allSpace_stripChars _ (allSpace_squashGo false s.data)

theorem headNotWS_clean_text (s : String) : headNotWS (clean_text s).data = true := by
  rw [clean_text_data]; exact headNotWS_stripChars _

theorem lastNotWS_clean_text (s : String) :
    headNotWS (clean_text s).data.reverse = true := by
  rw [clean_text_data]; exact lastNotWS_stripChars _

theorem string_ext (a b : String) (h : a.data = b.data) : a = b := by
  cases a
  cases b
  simp_all

theorem clean_text_idem (s : String) : clean_text (clean_text s) = clean_text s := by
  apply string_ext
  rw [clean_text_data (clean_text s),
    squashGo_fix _ (noDouble_clean_text s) (allSpace_clean_text s),
    stripChars_fix _ (headNotWS_clean_text s) (lastNotWS_clean_text s)]

/-! ## Claim C3 — the Field Extractor -/

/-- C3: `extract_score_overs("SL 145/6 (20 ov)") = ("SL 145/6", "20 ov")`;
`extract_score_overs("ENG 88-3 (12.4 Ov)") = ("ENG 88-3", "12.4 ov")`;
`extract_score_overs("210 all out")` gives score `"210 all out"` with empty
overs; and any text matching neither the overs pattern nor either score
pattern yields `("", "")`. -/
theorem claim_C3 :
    extract_score_and_overs "SL 145/6 (20 ov)" = ("SL 145/6", "20 ov") ∧
    extract_score_and_overs "ENG 88-3 (12.4 Ov)" = ("ENG 88-3", "12.4 ov") ∧
    (extract_score_and_overs "210 all out").1 = "210 all out" ∧
    (extract_score_and_overs "210 all out").2 = "" ∧
    ∀ text : String,
      oversSearch (clean_text text).data = none →
      scoreSearchGo none (clean_text text).data = none →
      alloutSearchGo none (clean_text text).data = none →
      extract_score_and_overs text = ("", "") := by
  refine ⟨by decide, by decide, by decide, by decide, ?_⟩
  intro text h1 h2 h3
  simp [extract_score_and_overs, h1, h2, h3]

/-- Witness for C3: a text with no overs and no score match yields two
empty fields. -/
theorem claim_C3_witness : extract_score_and_overs "hello world" = ("", "") :=
  claim_C3.2.2.2.2 "hello world" (by decide) (by decide) (by decide)

/-! ## Claim C4 — the Segmenter on the canonical example -/

/-- C4: segmenting `"SL vs ENG - SL 145/6 (20 ov) Innings Break"` produces
exactly one record
`{match: "SL vs ENG", score: "SL 145/6", overs: "20 ov", status: "Innings Break"}`. -/
theorem claim_C4 :
    split_live_blob_to_matches "SL vs ENG - SL 145/6 (20 ov) Innings Break" =
      [{ matchField := "SL vs ENG", score := "SL 145/6", overs := "20 ov",
         status := "Innings Break" }] := by decide

/-! ## Claim C1 — the status residual -/

/-- C1 fails as stated: Python's `str.replace(score, "")` removes every
occurrence of the score, not only the first one (and the `re.sub` for the
overs removes every occurrence too).  On the detail fragment
`"AB 1/1 (2 ov) AB 1/1 (2 ov) X"` the extractor finds score `"AB 1/1"` and
overs `"2 ov"`; the record's status is `"X"`, while removing only the
first occurrence of each as the claim states would leave
`"AB 1/1 (2 ov) X"`.  The claim's "in particular" consequence fails too:
on `"A vs B - 1-1121/121/1"` the record has score `"121/1"` and status
`"1-121/1"`, in which the score text still appears (the removals can
concatenate new occurrences). -/
theorem claim_C1_counterexample :
    blobFragments "A vs B - AB 1/1 (2 ov) AB 1/1 (2 ov) X" =
      ["A vs B", "AB 1/1 (2 ov) AB 1/1 (2 ov) X"] ∧
    extract_score_and_overs (clean_text "AB 1/1 (2 ov) AB 1/1 (2 ov) X") =
      ("AB 1/1", "2 ov") ∧
    split_live_blob_to_matches "A vs B - AB 1/1 (2 ov) AB 1/1 (2 ov) X" =
      [{ matchField := "A vs B", score := "AB 1/1", overs := "2 ov",
         status := "X" }] ∧
    extract_status_spec (clean_text "AB 1/1 (2 ov) AB 1/1 (2 ov) X")
      "AB 1/1" "2 ov" = "AB 1/1 (2 ov) X" ∧
    ("X" : String) ≠ "AB 1/1 (2 ov) X" ∧
    split_live_blob_to_matches "A vs B - 1-1121/121/1" =
      [{ matchField := "A vs B", score := "121/1", overs := "",
         status := "1-121/1" }] ∧
    containsSub "121/1" "1-121/1" = true :=
  ⟨by decide, by decide, by decide, by decide, by decide, by decide, by decide⟩

theorem partsLoop_mem (ps : List String) (cur : Option String) (r : MatchRec)
    (h : r ∈ partsLoop ps cur) :
    ∃ p ∈ ps, is_title_fragment p = false ∧ ∃ m, r = emit_record m p := by
  induction ps generalizing cur with
  | nil => simp [partsLoop] at h
  | cons p ps ih =>
    by_cases ht : is_title_fragment p = true
    · simp only [partsLoop, if_pos ht] at h
      obtain ⟨q, hq, hrest⟩ := ih _ h
      exact ⟨q, List.mem_cons_of_mem p hq, hrest⟩
    · simp only [partsLoop, if_neg ht] at h
      by_cases hc : cur.getD "" ≠ ""
      · rw [if_pos hc] at h
        rcases List.mem_cons.1 h with h | h
        · exact ⟨p, List.mem_cons_self p ps, by simpa using ht, cur.getD "", h⟩
        · obtain ⟨q, hq, hrest⟩ := ih _ h
          exact ⟨q, List.mem_cons_of_mem p hq, hrest⟩
      · rw [if_neg hc] at h
        obtain ⟨q, hq, hrest⟩ := ih _ h
        exact ⟨q, List.mem_cons_of_mem p hq, hrest⟩

theorem dedupCleanGo_mem (seen : List (String × String × String × String))
    (l : List MatchRec) (r : MatchRec) (h : r ∈ dedupCleanGo seen l) :
    ∃ r0 ∈ l, r = cleanRec r0 := by
  induction l generalizing seen with
  | nil => simp [dedupCleanGo] at h
  | cons item rest ih =>
    simp only [dedupCleanGo] at h
    by_cases h1 : (cleanRec item).matchField = ""
    · rw [if_pos h1] at h
      obtain ⟨r0, hr0, hre⟩ := ih _ h
      exact ⟨r0, List.mem_cons_of_mem item hr0, hre⟩
    · rw [if_neg h1] at h
      by_cases h2 : recKey (cleanRec item) ∈ seen
      · rw [if_pos h2] at h
        obtain ⟨r0, hr0, hre⟩ := ih _ h
        exact ⟨r0, List.mem_cons_of_mem item hr0, hre⟩
      · rw [if_neg h2] at h
        rcases List.mem_cons.1 h with h | h
        · exact ⟨item, List.mem_cons_self item rest, h⟩
        · obtain ⟨r0, hr0, hre⟩ := ih _ h
          exact ⟨r0, List.mem_cons_of_mem item hr0, hre⟩

/-- C1 (amended): every record of the segmenter comes from some
non-title fragment `p`, and its status equals the spec-side
`extract_status` with "every occurrence" in place of "the first
occurrence": if `score` is non-empty every literal occurrence of it is
removed, if `overs` is non-empty every parenthesized-or-bare
case-insensitive occurrence of it is removed, and whitespace is
re-normalized. -/
theorem claim_C1_amended (blob : String) (r : MatchRec)
    (h : r ∈ split_live_blob_to_matches blob) :
    ∃ p ∈ blobFragments blob, is_title_fragment p = false ∧
      r.status = extract_status_all (clean_text p)
        (extract_score_and_overs (clean_text p)).1
        (extract_score_and_overs (clean_text p)).2 := by
  obtain ⟨r0, hr0, hre⟩ := dedupCleanGo_mem _ _ _ h
  obtain ⟨p, hp, hpt, m, hm⟩ := partsLoop_mem _ _ _ hr0
  refine ⟨p, hp, hpt, ?_⟩
  subst hre
  subst hm
  have h2 : (cleanRec (emit_record m p)).status =
      clean_text ((emit_record m p).status) := rfl
  have h1 : (emit_record m p).status = extract_status_all (clean_text p)
      (extract_score_and_overs (clean_text p)).1
      (extract_score_and_overs (clean_text p)).2 := rfl
  rw [h2, h1]
  exact clean_text_idem _

/-- Witness for the amended C1 on a concrete blob and record. -/
theorem claim_C1_amended_witness :
    ∃ p ∈ blobFragments "a vs b - 1/2 xyz", is_title_fragment p = false ∧
      (MatchRec.status ⟨"a vs b", "1/2", "", "xyz"⟩) =
        extract_status_all (clean_text p)
          (extract_score_and_overs (clean_text p)).1
          (extract_score_and_overs (clean_text p)).2 :=
  claim_C1_amended "a vs b - 1/2 xyz" ⟨"a vs b", "1/2", "", "xyz"⟩ (by decide)

/-! ## Claim C8 — the Normalizer -/

/-- C8: `_clean_text` is idempotent; its output never contains two
consecutive whitespace characters nor leading or trailing whitespace; it
is total, and empty or absent input yields the empty string. -/
theorem claim_C8 :
    (∀ x : String, clean_text (clean_text x) = clean_text x) ∧
    (∀ x : String, noDouble (clean_text x).data = true ∧
      headNotWS (clean_text x).data = true ∧
      headNotWS (clean_text x).data.reverse = true) ∧
    clean_text "" = "" ∧ clean_text_opt none = "" :=
  ⟨clean_text_idem,
   fun x => ⟨noDouble_clean_text x, headNotWS_clean_text x, lastNotWS_clean_text x⟩,
   rfl, rfl⟩

/-! ## Claim C6 — the Candidate Selector -/

/-- C6: a selected candidate blob is never longer than 420 characters and
always has a versus marker; consequently a node whose normalized text is
longer than the bound or lacks a versus marker is never selected. -/
theorem claim_C6 :
    (∀ (nodes : List String) (b : String), b ∈ select_blobs nodes →
      b.length ≤ 420 ∧ has_vs_marker b = true) ∧
    (∀ (nodes : List String) (n : String), n ∈ nodes →
      ((clean_text n).length > 420 ∨ has_vs_marker (clean_text n) = false) →
      clean_text n ∉ select_blobs nodes) := by
  have part1 : ∀ (nodes : List String) (b : String), b ∈ select_blobs nodes →
      b.length ≤ 420 ∧ has_vs_marker b = true := by
    intro nodes b hb
    unfold select_blobs at hb
    have hcond := (List.mem_filter.1 hb).2
    simp only [Bool.and_eq_true, Bool.not_eq_true', decide_eq_false_iff_not,
      Nat.not_lt] at hcond
    obtain ⟨⟨⟨-, hlen⟩, hvs⟩, -⟩ := hcond
    exact ⟨hlen, hvs⟩
  refine ⟨part1, ?_⟩
  intro nodes n _ hviol hmem
  obtain ⟨hlen, hvs⟩ := part1 nodes _ hmem
  rcases hviol with h | h
  · omega
  · rw [h] at hvs
    exact Bool.false_ne_true hvs

/-- Witness for C6: a node with no versus marker is not selected. -/
theorem claim_C6_witness : clean_text "hello" ∉ select_blobs ["hello"] :=
  claim_C6.2 ["hello"] "hello" (by decide) (Or.inr (by decide))

/-! ## Claim C7 — the Deduplicator -/

theorem dedupFinalGo_sublist (seen : List (String × String × String × String))
    (l : List MatchRec) : (dedupFinalGo seen l).Sublist l := by
  induction l generalizing seen with
  | nil => simp [dedupFinalGo]
  | cons item rest ih =>
    simp only [dedupFinalGo]
    by_cases h : recKey item ∈ seen
    · rw [if_pos h]
      exact (ih seen).cons item
    · rw [if_neg h]
      exact (ih _).cons₂ item

theorem dedupFinalGo_unseen (seen : List (String × String × String × String))
    (l : List MatchRec) : ∀ r ∈ dedupFinalGo seen l, recKey r ∉ seen := by
  induction l generalizing seen with
  | nil => simp [dedupFinalGo]
  | cons item rest ih =>
    intro r hr
    simp only [dedupFinalGo] at hr
    by_cases h : recKey item ∈ seen
    · rw [if_pos h] at hr
      exact ih seen r hr
    · rw [if_neg h] at hr
      rcases List.mem_cons.1 hr with rfl | hr
      · exact h
      · intro hc
        exact ih _ r hr (List.mem_cons_of_mem _ hc)

theorem dedupFinalGo_pairwise (seen : List (String × String × String × String))
    (l : List MatchRec) :
    List.Pairwise (fun a b => recKey a ≠ recKey b) (dedupFinalGo seen l) := by
  induction l generalizing seen with
  | nil => simp [dedupFinalGo]
  | cons item rest ih =>
    simp only [dedupFinalGo]
    by_cases h : recKey item ∈ seen
    · rw [if_pos h]
      exact ih seen
    · rw [if_neg h]
      refine List.Pairwise.cons ?_ (ih _)
      intro b hb heq
      exact dedupFinalGo_unseen _ _ b hb (by rw [← heq]; exact List.mem_cons_self _ _)

theorem dedupFinalGo_idem (seen : List (String × String × String × String))
    (l : List MatchRec) :
    dedupFinalGo seen (dedupFinalGo seen l) = dedupFinalGo seen l := by
  induction l generalizing seen with
  | nil => simp [dedupFinalGo]
  | cons item rest ih =>
    by_cases h : recKey item ∈ seen
    · simp only [dedupFinalGo, if_pos h]
      exact ih seen
    · simp only [dedupFinalGo, if_neg h]
      rw [ih _]

theorem dedupFinalGo_cover (seen : List (String × String × String × String))
    (l : List MatchRec) : ∀ r ∈ l, recKey r ∈ seen ∨
      ∃ r2 ∈ dedupFinalGo seen l, recKey r2 = recKey r := by
  induction l generalizing seen with
  | nil => simp
  | cons item rest ih =>
    intro r hr
    by_cases h : recKey item ∈ seen
    · simp only [dedupFinalGo, if_pos h]
      rcases List.mem_cons.1 hr with rfl | hr
      · exact Or.inl h
      · exact ih seen r hr
    · simp only [dedupFinalGo, if_neg h]
      rcases List.mem_cons.1 hr with rfl | hr
      · exact Or.inr ⟨r, List.mem_cons_self _ _, rfl⟩
      · rcases ih (recKey item :: seen) r hr with hc | ⟨r2, hr2, he⟩
        · rcases List.mem_cons.1 hc with he | hc
          · exact Or.inr ⟨item, List.mem_cons_self _ _, he.symm⟩
          · exact Or.inl hc
        · exact Or.inr ⟨r2, List.mem_cons_of_mem _ hr2, he⟩

/-- C7: the final deduplication keeps a subsequence of its input (first
occurrences, in input order), no two kept records share a lower-cased key
tuple, every input key is still represented, and applying the pass twice
equals applying it once. -/
theorem claim_C7 (l : List MatchRec) :
    (dedup_records l).Sublist l ∧
    List.Pairwise (fun a b => recKey a ≠ recKey b) (dedup_records l) ∧
    dedup_records (dedup_records l) = dedup_records l ∧
    ∀ r ∈ l, ∃ r2 ∈ dedup_records l, recKey r2 = recKey r := by
  refine ⟨dedupFinalGo_sublist [] l, dedupFinalGo_pairwise [] l,
    dedupFinalGo_idem [] l, ?_⟩
  intro r hr
  rcases dedupFinalGo_cover [] l r hr with hc | h
  · simp at hc
  · exact h

/-- Witness for C7's coverage part on a one-record list. -/
theorem claim_C7_witness :
    ∃ r2 ∈ dedup_records [(⟨"a", "1/2", "", ""⟩ : MatchRec)],
      recKey r2 = recKey ⟨"a", "1/2", "", ""⟩ :=
  (claim_C7 _).2.2.2 _ (by decide)

/-! ## Claim C9 — the 502 error path of `/live` -/

/-- C9: when the fetch succeeded but zero qualifying blobs are selected, or
segmentation yields zero records, `/live` answers 502 with an error message
and no record array. -/
theorem claim_C9 (nodes : List String)
    (h : select_blobs nodes = [] ∨ live_items nodes = []) :
    ∃ msg : String, live_matches 200 nodes = .failure 502 msg := by
  by_cases hb : uniq_blobs nodes = []
  · refine ⟨"No live data found (layout changed)", ?_⟩
    unfold live_matches
    rw [if_neg (by simp), if_pos hb]
  · have hi : live_items nodes = [] := by
      rcases h with h | h
      · exact absurd (by unfold uniq_blobs; rw [h]; rfl) hb
      · exact h
    refine ⟨"Parsed zero matches (layout changed)", ?_⟩
    have hf : live_final nodes = [] := by
      unfold live_final
      rw [hi]
      rfl
    unfold live_matches
    rw [if_neg (by simp), if_neg hb, if_pos hf]

/-- Witness for C9: an empty node sample yields a 502. -/
theorem claim_C9_witness :
    ∃ msg : String, live_matches 200 [] = .failure 502 msg :=
  claim_C9 [] (Or.inl (by decide))

/-! ## Claim C10 — the result caps of `/live` -/

/-- C10: segmentation only ever reads the first 10 deduplicated blobs
(truncating the blob list to 10 does not change the segmented items), and
a successful response carries at most 30 records. -/
theorem claim_C10 :
    (∀ bs : List String, liveItemsFromBlobs (bs.take 10) = liveItemsFromBlobs bs) ∧
    (∀ (fetchStatus : Nat) (nodes : List String) (code : Nat)
        (recs : List MatchRec),
      live_matches fetchStatus nodes = .success code recs → recs.length ≤ 30) := by
  constructor
  · intro bs
    unfold liveItemsFromBlobs
    rw [List.take_take]
    simp
  · intro st nodes code recs h
    unfold live_matches at h
    by_cases h1 : st ≠ 200
    · rw [if_pos h1] at h
      simp at h
    · rw [if_neg h1] at h
      by_cases h2 : uniq_blobs nodes = []
      · rw [if_pos h2] at h
        simp at h
      · rw [if_neg h2] at h
        by_cases h3 : live_final nodes = []
        · rw [if_pos h3] at h
          simp at h
        · rw [if_neg h3] at h
          injection h with hc hr
          rw [← hr]
          exact List.length_take_le 30 _

/-- Witness for C10's cap on a concrete successful request. -/
theorem claim_C10_witness :
    ([(⟨"a vs b", "1/2", "", "xyz"⟩ : MatchRec)]).length ≤ 30 :=
  claim_C10.2 200 ["a vs b - 1/2 xyz"] 200 [⟨"a vs b", "1/2", "", "xyz"⟩]
    (by decide)

/-! ## Claim C2 — the enrichment fallback (spec-modelled) -/

/-- C2 (spec-modelled): when every per-link detail fetch fails, a
`detail=1` request returns exactly the same result as the plain `/live`
request on the same listing state — never an error in its place — and the
plain request is the non-enrichment path. -/
theorem claim_C2 (fetchStatus : Nat) (nodes links : List String)
    (fetch : String → Option DetailPage)
    (h : ∀ u ∈ links, fetch u = none) :
    live_matches_detail true fetchStatus nodes links fetch =
      live_matches fetchStatus nodes ∧
    live_matches_detail false fetchStatus nodes links fetch =
      live_matches fetchStatus nodes := by
  refine ⟨?_, rfl⟩
  have he : enrich_records fetch (links.take 10) = [] := by
    unfold enrich_records
    rw [List.filterMap_eq_nil_iff]
    intro u hu
    rw [h u (List.take_subset 10 links hu)]
  unfold live_matches_detail
  simp [he, dedup_records, dedupFinalGo]

/-- Witness for C2: a fetch that always fails falls back to `/live`. -/
theorem claim_C2_witness :
    live_matches_detail true 200 [] ["u"] (fun _ => none) =
      live_matches 200 [] ∧
    live_matches_detail false 200 [] ["u"] (fun _ => none) =
      live_matches 200 [] :=
  claim_C2 200 [] ["u"] (fun _ => none) (fun _ _ => rfl)

/-! ## Claim C5 — consecutive titles and trailing titles -/

theorem pySpace_toLower_ne_v (c : Char) (h : pySpace c = true) :
    (c.toLower == 'v') = false := by
  simp only [pySpace, Bool.or_eq_true, beq_iff_eq] at h
  rcases h with ((((h | h) | h) | h) | h) | h <;> subst h <;> decide

theorem exists_v_of_hasVs (prev : Option Char) (l : Chars)
    (h : hasVsWordGo prev l = true) : ∃ c ∈ l, (c.toLower == 'v') = true := by
  induction l generalizing prev with
  | nil => simp [hasVsWordGo] at h
  | cons c rest ih =>
    simp only [hasVsWordGo, Bool.or_eq_true, Bool.and_eq_true] at h
    rcases h with ⟨-, hv⟩ | h
    · simp only [vsTryAt, Bool.and_eq_true] at hv
      exact ⟨c, List.mem_cons_self _ _, hv.1⟩
    · obtain ⟨d, hd, hv⟩ := ih _ h
      exact ⟨d, List.mem_cons_of_mem _ hd, hv⟩

theorem filter_squashGo (b : Bool) (l : Chars) :
    (squashGo b l).filter (fun c => !pySpace c) = l.filter (fun c => !pySpace c) := by
  induction l generalizing b with
  | nil => rfl
  | cons c cs ih =>
    by_cases h : pySpace c = true
    · cases b with
      | true => simp [squashGo, h, List.filter_cons, ih true]
      | false =>
        simp [squashGo, h, List.filter_cons, ih true,
          (by decide : pySpace ' ' = true)]
    · simp [squashGo, h, List.filter_cons, ih false]

theorem filter_dropWS (l : Chars) :
    (dropWS l).filter (fun c => !pySpace c) = l.filter (fun c => !pySpace c) := by
  induction l with
  | nil => rfl
  | cons c cs ih =>
    by_cases h : pySpace c = true
    · have hstep : dropWS (c :: cs) = dropWS cs := by
        simp [dropWS, List.dropWhile, h]
      rw [hstep, ih, List.filter_cons]
      simp [h]
    · have hstep : dropWS (c :: cs) = c :: cs := by
        simp [dropWS, List.dropWhile, h]
      rw [hstep]

theorem filter_stripChars (l : Chars) :
    (stripChars l).filter (fun c => !pySpace c) = l.filter (fun c => !pySpace c) := by
  unfold stripChars
  rw [List.filter_reverse, filter_dropWS, List.filter_reverse, filter_dropWS,
    List.reverse_reverse]

theorem clean_text_ne_empty (p : String) (c : Char) (hc : c ∈ p.data)
    (hw : pySpace c = false) : clean_text p ≠ "" := by
  intro h
  have h0 : (clean_text p).data = [] := by rw [h]
  have h1 : (clean_text p).data.filter (fun c => !pySpace c) =
      p.data.filter (fun c => !pySpace c) := by
    rw [clean_text_data, filter_stripChars, filter_squashGo]
  rw [h0] at h1
  have h2 : c ∈ p.data.filter (fun c => !pySpace c) :=
    List.mem_filter.2 ⟨hc, by simp [hw]⟩
  rw [← h1] at h2
  simp at h2

theorem title_clean_ne (p : String) (h : is_title_fragment p = true) :
    clean_text p ≠ "" := by
  obtain ⟨c, hc, hv⟩ := exists_v_of_hasVs none p.data h
  refine clean_text_ne_empty p c hc ?_
  by_contra hw
  rw [Bool.not_eq_false] at hw
  rw [pySpace_toLower_ne_v c hw] at hv
  exact Bool.false_ne_true hv

theorem partsLoop_append_title (ps : List String) (t : String)
    (ht : is_title_fragment t = true) :
    ∀ cur : Option String, partsLoop (ps ++ [t]) cur = partsLoop ps cur := by
  induction ps with
  | nil =>
    intro cur
    simp [partsLoop, ht]
  | cons p ps ih =>
    intro cur
    by_cases hp : is_title_fragment p = true
    · simp only [List.cons_append, partsLoop, if_pos hp]
      exact ih _
    · simp only [List.cons_append, partsLoop, if_neg hp]
      by_cases hc : cur.getD "" ≠ ""
      · rw [if_pos hc, if_pos hc]
        simp only [List.append_eq]
        rw [ih none]
      · rw [if_neg hc, if_neg hc]
        exact ih _

/-- C5: a blob whose fragments are two consecutive title fragments followed
by one detail fragment yields exactly one record, whose match is the second
(most recent, normalized) title; and a trailing title fragment with no
following detail fragment contributes nothing (no trailing flush). -/
theorem claim_C5 :
    (∀ blob t1 t2 d : String,
      blobFragments blob = [t1, t2, d] →
      is_title_fragment t1 = true → is_title_fragment t2 = true →
      is_title_fragment d = false →
      split_live_blob_to_matches blob =
        [cleanRec (emit_record (clean_text t2) d)] ∧
      (cleanRec (emit_record (clean_text t2) d)).matchField = clean_text t2) ∧
    (∀ (blob : String) (ps : List String) (t : String),
      blobFragments blob = ps ++ [t] → is_title_fragment t = true →
      split_live_blob_to_matches blob = segmentFragments ps) := by
  constructor
  · intro blob t1 t2 d hf h1 h2 h3
    have hmf : clean_text t2 ≠ "" := title_clean_ne t2 h2
    have hloop : partsLoop [t1, t2, d] none = [emit_record (clean_text t2) d] := by
      simp only [partsLoop, if_pos h1, if_pos h2, Option.getD_some]
      rw [if_neg (by simp [h3]), if_pos hmf]
    have hclean : (cleanRec (emit_record (clean_text t2) d)).matchField =
        clean_text t2 := clean_text_idem t2
    refine ⟨?_, hclean⟩
    unfold split_live_blob_to_matches segmentFragments
    rw [hf, hloop]
    simp only [dedupCleanGo]
    rw [if_neg (by rw [hclean]; exact hmf), if_neg (by simp)]
  · intro blob ps t hf ht
    unfold split_live_blob_to_matches segmentFragments
    rw [hf, partsLoop_append_title ps t ht none]

/-- Witness for C5 on concrete blobs. -/
theorem claim_C5_witness :
    (split_live_blob_to_matches "a vs b - c vs d - 1/2 xyz" =
      [cleanRec (emit_record (clean_text "c vs d") "1/2 xyz")] ∧
     (cleanRec (emit_record (clean_text "c vs d") "1/2 xyz")).matchField =
       clean_text "c vs d") ∧
    split_live_blob_to_matches "1/2 xyz - a vs b" = segmentFragments ["1/2 xyz"] :=
  ⟨claim_C5.1 "a vs b - c vs d - 1/2 xyz" "a vs b" "c vs d" "1/2 xyz"
     (by decide) (by decide) (by decide) (by decide),
   claim_C5.2 "1/2 xyz - a vs b" ["1/2 xyz"] "a vs b" (by decide) (by decide)⟩
